import Mathlib

/-!
Shallow embedding of `src/Latent Dynamics Planning/LatentDynamicsReferenceClasses.py`
(vision encoder, EMA world model, inverse dynamics model, and training loop),
together with theorems settling the frozen claims about that file.

Conventions used throughout:
* Python floats are modelled as exact rationals/reals.
* Tensors are modelled as `Fin`-indexed functions or `List`s.
* Library numeric kernels (attention, layer norm, feed-forward, optimizer update
  rules) are abstracted as arbitrary functions wherever a claim only concerns the
  data routing built on top of them; the routing itself is translated literally.
-/

namespace LatentDynamics

/-! ### C1 : observation routing of `IDM.label` and `IDM.label_chunked`

`IDM.label` (source lines 635-645) reads
`x_before = batch["obs"][:, -2]`, `x_after = batch["obs"][:, -1]` and calls
`self(x_before, x_after)`.

The `_label` closure inside `IDM.label_chunked` (source lines 662-665) reads
`after_obs = normalize_obs(data_batch["obs"][:, -2])`,
`before_obs = normalize_obs(data_batch["obs"][:, -1])` and calls
`self(before_obs, after_obs)`.

We model the observation sequence of a batch as a function from the (negative) time
offset to the image, and record the ordered pair of images handed to inference
(`self(...)`), first positional argument first. `normalize_obs` is not defined
in the source file; it is kept abstract as a parameter. -/

/-- Image pair passed to `self(...)` by `IDM.label`: source lines 640-642. -/
def labelArgs {Img : Type} (obs : Int → Img) : Img × Img :=
  (obs (-2), obs (-1))

/-- Image pair passed to `self(...)` by the `_label` closure of
`IDM.label_chunked`: source lines 663-665, with `after_obs` bound to offset
`-2` and `before_obs` bound to offset `-1`. -/
def labelChunkedArgs {Img : Type} (normalize_obs : Img → Img) (obs : Int → Img) :
    Img × Img :=
  (normalize_obs (obs (-1)), normalize_obs (obs (-2)))

/-! ### C2 : construction-time configuration checks of `VisionEncoder`

`VisionEncoder.__init__` (source lines 2-39) performs, in order:
1. `assert img_size % patch_size == 0` (line 13);
2. builds the positional embedding via `_get_2d_sincos_pos_embed` (line 29),
   which asserts `embed_dim % 2 == 0` (line 90) and then calls
   `_get_1d_sincos_pos_embed(embed_dim // 2, ...)` (lines 101-102), which in
   turn asserts `(embed_dim // 2) % 2 == 0` (line 120);
3. builds `depth` many `nn.TransformerEncoderLayer(d_model=embed_dim,
   nhead=num_heads)` (lines 34-39); the torch library constructor
   (`nn.MultiheadAttention.__init__`) raises at construction unless
   `embed_dim % num_heads == 0` — this library check is modelled here as the
   final guard, taken only when `depth > 0` since only then is a layer built.

Construction is modelled as an `Except`: an `error` value means the Python
constructor raised before any object (hence before any forward pass) existed. -/

structure VEConfig where
  img_size : Nat
  patch_size : Nat
  in_chans : Nat
  embed_dim : Nat
  depth : Nat
  num_heads : Nat
deriving DecidableEq, Repr

/-- Constructed `VisionEncoder` fields (source lines 14-18). The sine/cosine
positional values themselves are not needed by any claim and are omitted. -/
structure VisionEncoder where
  num_patches : Nat
  patch_size : Nat
  embed_dim : Nat
  depth : Nat
  grid_size : Nat
deriving DecidableEq, Repr

/-- Embedding of `VisionEncoder.__init__` as a fallible constructor, with the
assertion order of the source preserved. -/
def VisionEncoder.init (c : VEConfig) : Except String VisionEncoder :=
  if ¬ (c.img_size % c.patch_size = 0) then
    Except.error "Image size must be divisible by patch size."
  else if ¬ (c.embed_dim % 2 = 0) then
    Except.error "Embed dimension must be even for sine and cosine."
  else if ¬ ((c.embed_dim / 2) % 2 = 0) then
    Except.error "Embed dimension must be even for sine and cosine."
  else if 0 < c.depth ∧ ¬ (c.embed_dim % c.num_heads = 0) then
    Except.error "embed_dim must be divisible by num_heads"
  else
    Except.ok
      { num_patches := (c.img_size / c.patch_size) ^ 2
        patch_size := c.patch_size
        embed_dim := c.embed_dim
        depth := c.depth
        grid_size := c.img_size / c.patch_size }

/-! ### C3 : learning-rate schedule

Source lines 710-725 and 736-739: `lr_lambda` is handed to `LambdaLR` over an
`AdamW` optimizer whose base learning rate is `INITIAL_LR`, so the effective
rate at `step` is `INITIAL_LR * lr_lambda(step)`. The Python expression
`int(0.15 * total_steps)` is modelled exactly as `(3 * total_steps) / 20` in
natural-number division, and float arithmetic as real arithmetic. -/

def INITIAL_LR : ℝ := 1e-7

def PEAK_LR : ℝ := 1e-4

def FINAL_LR : ℝ := 3e-5

/-- Warmup step count `int(0.15 * total_steps)` (source line 717). -/
def warmupSteps (total_steps : Nat) : Nat := (3 * total_steps) / 20

/-- Embedding of `lr_lambda` (source lines 716-725). -/
noncomputable def lr_lambda (total_steps step : Nat) : ℝ :=
  let warmup_steps := warmupSteps total_steps
  if step < warmup_steps then
    (PEAK_LR - INITIAL_LR) / INITIAL_LR * ((step : ℝ) / (warmup_steps : ℝ)) + 1
  else
    let progress : ℝ :=
      ((step : ℝ) - (warmup_steps : ℝ)) / ((total_steps : ℝ) - (warmup_steps : ℝ))
    let cosine_decay : ℝ := (1 / 2) * (1 + Real.cos (Real.pi * progress + Real.pi))
    (PEAK_LR + (FINAL_LR - PEAK_LR) * cosine_decay) / INITIAL_LR

/-- Effective learning rate at a step: base rate `INITIAL_LR` (line 738) times
the `LambdaLR` multiplier (line 739). -/
noncomputable def lrAt (total_steps step : Nat) : ℝ :=
  INITIAL_LR * lr_lambda total_steps step

/-! ### C4 and C5 : EMA update and training-step ordering

Parameters are modelled as records carrying a value, the `requires_grad` flag,
and an optional gradient (`None` in torch becomes `none`). The parameter
collections of the shared online encoder, of the EMA encoder, and of all the
remaining modules are kept as three lists, mirroring the two-object ownership
of `WorldModel.__init__` (source lines 290-299).

Python floats are modelled as rationals so that everything evaluates. -/

structure Param where
  val : ℚ
  reqGrad : Bool
  grad : Option ℚ
deriving DecidableEq, Repr

instance : Inhabited Param := ⟨⟨0, true, none⟩⟩

structure TrainState where
  enc : List Param
  ema : List Param
  other : List Param
deriving DecidableEq, Repr

/-- Embedding of `WorldModel.update_ema` (source lines 377-383):
`zip(self.ema_encoder.parameters(), self.encoder.parameters())` with the
in-place update `ema_param.data.mul_(momentum).add_(param.data * (1 - momentum))`.
Only the `data` (value) of each EMA parameter is written; flags, gradients and
every other parameter collection are untouched. -/
def update_ema (momentum : ℚ) (s : TrainState) : TrainState :=
  { s with
    ema := (s.ema.zip s.enc).map fun pq =>
      { pq.1 with val := pq.1.val * momentum + pq.2.val * (1 - momentum) } }

/-- Embedding of the EMA freeze in `WorldModel.__init__` (source lines
298-299): `for p in self.ema_encoder.parameters(): p.requires_grad_(False)`. -/
def freezeEMA (s : TrainState) : TrainState :=
  { s with ema := s.ema.map fun p => { p with reqGrad := false } }

/-- Parameter-mutating operations of one training step, at the granularity of
`train_step` (source lines 745-790). `labelOp` stands for the forward passes
`idm.label` / `wm.label`, which mutate the batch but no parameter. -/
inductive TrainOp where
  | labelOp : TrainOp
  | zeroGrad : TrainOp
  | backward : TrainOp
  | optStep : TrainOp
  | updateEMA : ℚ → TrainOp
deriving DecidableEq, Repr

/-- Operation sequence of `train_step` in source order: `idm.label` (753),
`wm.label` (754), `optimizer.zero_grad()` (761), `loss.backward()` (763),
`optimizer.step()` (767), `wm.update_ema(momentum)` (768), then
`wm.zero_grad()` and `idm.zero_grad()` (787-788). -/
def trainStepOps (m : ℚ) : List TrainOp :=
  [TrainOp.labelOp, TrainOp.labelOp, TrainOp.zeroGrad, TrainOp.backward,
   TrainOp.optStep, TrainOp.updateEMA m, TrainOp.zeroGrad, TrainOp.zeroGrad]

/-- Backward pass semantics: autograd accumulates a gradient into every
parameter that has `requires_grad = True`; parameters with
`requires_grad = False` are left untouched. The gradient contribution `g i`
for slot `i` is an arbitrary input. -/
def applyBackward (g : Nat → ℚ) (ps : List Param) : List Param :=
  ps.mapIdx fun i p =>
    if p.reqGrad then { p with grad := some (p.grad.getD 0 + g i) } else p

/-- Semantics of `optimizer.zero_grad()` / `Module.zero_grad()`: gradients of
all covered parameters are reset to `None`. -/
def applyZeroGrad (ps : List Param) : List Param :=
  ps.map fun p => { p with grad := none }

/-- Optimizer step semantics (`AdamW.step`): a parameter whose gradient is
`None` is skipped; otherwise its value is rewritten by the update rule `upd`
(kept abstract — the numeric AdamW rule is library code). The optimizer was
built over `get_unique_params(idm, wm)` (source line 738), which includes the
EMA parameters, so the step is applied to every list. -/
def applyOptStep (upd : ℚ → ℚ → ℚ) (ps : List Param) : List Param :=
  ps.map fun p =>
    match p.grad with
    | none => p
    | some g => { p with val := upd p.val g }

/-- One-operation semantics over the training state. `gE`, `gA`, `gO` are the
backward gradient contributions for the encoder, EMA, and other parameters. -/
def execOp (upd : ℚ → ℚ → ℚ) (gE gA gO : Nat → ℚ) :
    TrainOp → TrainState → TrainState
  | TrainOp.labelOp, s => s
  | TrainOp.zeroGrad, s =>
      { enc := applyZeroGrad s.enc, ema := applyZeroGrad s.ema,
        other := applyZeroGrad s.other }
  | TrainOp.backward, s =>
      { enc := applyBackward gE s.enc, ema := applyBackward gA s.ema,
        other := applyBackward gO s.other }
  | TrainOp.optStep, s =>
      { enc := applyOptStep upd s.enc, ema := applyOptStep upd s.ema,
        other := applyOptStep upd s.other }
  | TrainOp.updateEMA m, s => update_ema m s

/-- Execution of an operation list, left to right. -/
def execOps (upd : ℚ → ℚ → ℚ) (gE gA gO : Nat → ℚ) (ops : List TrainOp)
    (s : TrainState) : TrainState :=
  ops.foldl (fun st op => execOp upd gE gA gO op st) s

/-- Recogniser for the EMA-update operation. -/
def isEMAOp : TrainOp → Bool
  | TrainOp.updateEMA _ => true
  | _ => false

/-- Values of the EMA parameter list of a state. -/
def emaVals (s : TrainState) : List ℚ := s.ema.map Param.val

/-- Gradient isolation invariant for the EMA encoder: every EMA parameter has
`requires_grad = False` and no gradient. -/
def emaIsolated (s : TrainState) : Prop :=
  ∀ p ∈ s.ema, p.reqGrad = false ∧ p.grad = none

/-! ### C6 : stochastic patch retention in `IDM._encode_vision_context`

Source lines 489-526, training branch, per sample:
`top_k = max(1, int(P * self.top_pct))`; `rand_vals = torch.rand(B, P)`;
`idxs = rand_vals.topk(top_k, largest=False)` indices; a boolean `keep_mask`
set at those indices; kept patches are gathered, run through the transformer,
and scattered back over a buffer pre-filled with the single learned
`drop_token`. The transformer is kept abstract (library kernel) as a
length-preserving list map; the gather/scatter/mask routing follows the source. -/

/-- Kept-patch count `top_k = max(1, int(P * self.top_pct))` (source line 491);
Python `int` truncation of the non-negative product is the floor. -/
def topK (P : Nat) (top_pct : ℚ) : Nat := max 1 (Int.toNat ⌊(P : ℚ) * top_pct⌋)

/-- Indices of the `k` smallest entries of the per-sample random values,
modelling `rand_vals.topk(top_k, largest=False)` (source lines 492-493) by a
sort of the positions; `torch.topk` leaves tie order unspecified. -/
def topkSmallestIdx (vals : List ℚ) (k : Nat) : List Nat :=
  (List.insertionSort (fun i j => vals.getD i 0 ≤ vals.getD j 0)
    (List.range vals.length)).take k

/-- Boolean keep mask over the `P` patch positions (source lines 494-496):
zeros with `True` scattered at the top-k indices. -/
def keepMask (P : Nat) (idxs : List Nat) : List Bool :=
  (List.range P).map fun p => decide (p ∈ idxs)

/-- Row gather `torch.gather(after_patch, 1, idxs.expand(...))`
(source lines 508-511). -/
def gatherRows {V : Type} [Inhabited V] (ps : List V) (idxs : List Nat) : List V :=
  idxs.map fun i => ps.getD i default

/-- Scatter of the kept rows into a fill-token buffer:
`full_after = drop_token.expand(B, P, ...).clone()` then
`full_after.scatter_(1, idxs.expand(...), after_ctx_kept)`
(source lines 516-526): position `p` receives row `k` of `vals` when
`idxs[k] = p` (top-k indices are distinct), every other position keeps the
fill value. -/
def scatterRows {W : Type} (P : Nat) (idxs : List Nat) (vals : List W) (fill : W) :
    List W :=
  (List.range P).map fun p =>
    if p ∈ idxs then vals.getD (idxs.indexOf p) fill else fill

/-- Training-time after-branch of `_encode_vision_context` (source lines
505-526): gather the kept patches, run the transformer on them only, scatter
the outputs back to their original positions over a drop-token-filled
buffer. -/
def encodeAfterTrain {V W : Type} [Inhabited V] (run_transformer : List V → List W)
    (drop_token : W) (after_patch : List V) (idxs : List Nat) : List W :=
  scatterRows after_patch.length idxs
    (run_transformer (gatherRows after_patch idxs)) drop_token

/-! ### C7 : autoregressive token-count contracts of `IDM.forward` -/

/-- Model of `torch.randint(low, high, (1,)).item()` (source lines 601-606):
uniform over `[low, high)`; the draw is indexed by the seed `r`. -/
def randintVal (low high r : Nat) : Nat := low + r % (high - low)

/-- Autoregressive decode loop of `IDM.forward` (eval: source lines 573-589;
train: lines 611-630): starting from the learned mask token, each step runs
the decoder on the current target sequence and the memory of that step, projects
the last position through the action head, appends the action to the outputs
and the decoder output (not the action) to the target sequence. Decoder and
action head are abstract (library transformer internals); the loop structure
and state threading follow the source. -/
def arDecode {V A M : Type} (decoder : List V → M → V) (action_head : V → A)
    (mask_token : V) (memory : Nat → M) : Nat → List A × List V
  | 0 => ([], [mask_token])
  | n + 1 =>
    let s := arDecode decoder action_head mask_token memory n
    let last_token := decoder s.2 (memory n)
    (s.1 ++ [action_head last_token], s.2 ++ [last_token])

/-- Evaluation branch of `IDM.forward` (source lines 562-597): exactly
`num_eval_tokens` steps, context encoded once (constant memory); returns the
`la` action list. -/
def idmForwardEval {V A M : Type} (decoder : List V → M → V) (action_head : V → A)
    (mask_token : V) (memory : M) (num_eval_tokens : Nat) : List A :=
  (arDecode decoder action_head mask_token (fun _ => memory) num_eval_tokens).1

/-- Training branch of `IDM.forward` (source lines 599-633): the token count is
`randint(min_tokens, max_tokens + 1)` and the context is re-encoded at every
step (step-indexed memory); returns the `la` action list. -/
def idmForwardTrain {V A M : Type} (decoder : List V → M → V) (action_head : V → A)
    (mask_token : V) (memory : Nat → M) (min_tokens max_tokens r : Nat) : List A :=
  (arDecode decoder action_head mask_token memory
    (randintVal min_tokens (max_tokens + 1) r)).1

/-! ### C8 : per-layer loss of `WorldModel.label`

Source lines 355-375: `before_obs = batch["obs"][:, -2]`,
`target_obs = batch["obs"][:, -1]`, `pred = self(before_obs, la,
action_mask=la_mask)` and `target_embed = self.ema_encoder(target_obs)` are
`[B, D, P, E]` tensors; `diff = F.mse_loss(pred, target_embed,
reduction=none)` is the elementwise squared error and
`loss_per_depth = diff.mean(dim=(0, 2, 3))` averages over batch, patches and
embedding channels, leaving one scalar per encoder layer. The prediction path
and the EMA encoder are abstract tensor producers; the loss arithmetic and
the batch wiring follow the source. -/

/-- Elementwise `F.mse_loss(pred, target, reduction=none)` (source line 373). -/
def mseLossNone {B D P E : Nat} (pred target : Fin B → Fin D → Fin P → Fin E → ℚ) :
    Fin B → Fin D → Fin P → Fin E → ℚ :=
  fun b d p e => (pred b d p e - target b d p e) ^ 2

/-- Tensor mean over dimensions 0 (batch), 2 (patches) and 3 (embedding):
`diff.mean(dim=(0, 2, 3))` (source line 374). -/
def meanDims023 {B D P E : Nat} (x : Fin B → Fin D → Fin P → Fin E → ℚ) :
    Fin D → ℚ :=
  fun d => (∑ b, ∑ p, ∑ e, x b d p e) / ((B : ℚ) * P * E)

/-- Loss of `WorldModel.label` (source lines 355-375) as a list with one entry
per encoder layer; `wm_forward` abstracts `self(before_obs, la, action_mask)`
and `ema_encoder` the gradient-frozen target encoder. -/
def wmLabel {Img Act : Type} {B D P E : Nat}
    (wm_forward : Img → Act → Fin B → Fin D → Fin P → Fin E → ℚ)
    (ema_encoder : Img → Fin B → Fin D → Fin P → Fin E → ℚ)
    (obs : Int → Img) (la : Act) : List ℚ :=
  List.ofFn fun d =>
    meanDims023 (mseLossNone (wm_forward (obs (-2)) la) (ema_encoder (obs (-1)))) d

/-! ### C9 : causal masking and future-position invariance

`generate_causal_mask` (source lines 391-397) builds
`torch.triu(torch.ones(L, L), diagonal=1).bool()`: entry `(i, j)` is `True`
(attention forbidden) exactly when `j - i ≥ 1`. `IDM._make_causal_mask`
(source lines 466-473) builds
`torch.triu(torch.full((L, L), float(-inf)), diagonal=1)`: `-inf` exactly
when `j - i ≥ 1`, `0` elsewhere; the `-inf` additive-mask entries are
modelled as `none`, finite entries as `some c`.

The decoder is `nn.Transformer(...).decoder` invoked with `tgt_mask` equal to
that causal mask (source lines 578-582 and 619-623). A decoder layer is
modelled after `nn.TransformerDecoderLayer`: masked softmax self-attention
(weights `exp(score + mask)` normalised over the row, with `exp(-inf) = 0` on
masked entries), then position-wise residual+norm, cross-attention to the
shared memory (no memory mask), and a position-wise feed-forward block. The
numeric sub-functions (score, value map, norms, cross-attention,
feed-forward) are abstract library kernels; the mask routing is explicit. -/

/-- Embedding of `generate_causal_mask` (source lines 391-397): boolean mask,
`true` at `(i, j)` iff position `i` may not attend to position `j`. -/
def generate_causal_mask (L : Nat) : Fin L → Fin L → Bool :=
  fun i j => decide ((i : Nat) + 1 ≤ (j : Nat))

/-- Embedding of `IDM._make_causal_mask` (source lines 466-473): additive
float mask, `-inf` (modelled `none`) at `(i, j)` iff `j > i`, else `0`. -/
def make_causal_mask (L : Nat) : Fin L → Fin L → Option ℝ :=
  fun i j => if (i : Nat) + 1 ≤ (j : Nat) then none else some 0

/-- Abstract numeric components of one `nn.TransformerDecoderLayer`. -/
structure DecLayer (dm : Nat) (M : Type) where
  score : (Fin dm → ℝ) → (Fin dm → ℝ) → ℝ
  valueMap : (Fin dm → ℝ) → (Fin dm → ℝ)
  selfNorm : (Fin dm → ℝ) → (Fin dm → ℝ)
  crossAttn : (Fin dm → ℝ) → M → (Fin dm → ℝ)
  crossNorm : (Fin dm → ℝ) → (Fin dm → ℝ)
  ff : (Fin dm → ℝ) → (Fin dm → ℝ)
  ffNorm : (Fin dm → ℝ) → (Fin dm → ℝ)

/-- Unnormalised masked attention weight `exp(score(q_i, k_j) + mask[i, j])`,
`0` where the additive mask is `-inf`. -/
noncomputable def maskedExp {L dm : Nat} {M : Type} (ly : DecLayer dm M)
    (mask : Fin L → Fin L → Option ℝ) (tgt : Fin L → Fin dm → ℝ)
    (i j : Fin L) : ℝ :=
  match mask i j with
  | none => 0
  | some c => Real.exp (ly.score (tgt i) (tgt j) + c)

/-- Row-normalised masked softmax attention weight. -/
noncomputable def attnWeight {L dm : Nat} {M : Type} (ly : DecLayer dm M)
    (mask : Fin L → Fin L → Option ℝ) (tgt : Fin L → Fin dm → ℝ)
    (i j : Fin L) : ℝ :=
  maskedExp ly mask tgt i j / ∑ j2, maskedExp ly mask tgt i j2

/-- Masked self-attention output at query position `i`. -/
noncomputable def selfAttnOut {L dm : Nat} {M : Type} (ly : DecLayer dm M)
    (mask : Fin L → Fin L → Option ℝ) (tgt : Fin L → Fin dm → ℝ)
    (i : Fin L) : Fin dm → ℝ :=
  fun e => ∑ j, attnWeight ly mask tgt i j * ly.valueMap (tgt j) e

/-- One decoder layer (`nn.TransformerDecoderLayer` with `norm_first=False`):
self-attention, cross-attention to the memory, feed-forward, each with
residual and normalisation. -/
noncomputable def decLayerApply {L dm : Nat} {M : Type} (ly : DecLayer dm M)
    (mask : Fin L → Fin L → Option ℝ) (memory : M)
    (tgt : Fin L → Fin dm → ℝ) : Fin L → Fin dm → ℝ :=
  fun i =>
    let x1 := ly.selfNorm fun e => tgt i e + selfAttnOut ly mask tgt i e
    let x2 := ly.crossNorm fun e => x1 e + ly.crossAttn x1 memory e
    ly.ffNorm fun e => x2 e + ly.ff x2 e

/-- The decoder stack (`nn.TransformerDecoder`): layers applied in order. -/
noncomputable def decoderApply {L dm : Nat} {M : Type}
    (layers : List (DecLayer dm M)) (mask : Fin L → Fin L → Option ℝ)
    (memory : M) (tgt : Fin L → Fin dm → ℝ) : Fin L → Fin dm → ℝ :=
  layers.foldl (fun t ly => decLayerApply ly mask memory t) tgt

/-! ### C10 : optimizer parameter deduplication

`get_unique_params` (source lines 728-732) returns
`list(set(model1.parameters()) | set(model2.parameters()))`: identity-based
set union, so a parameter tensor appears once however often it is shared.
Parameters are modelled by identifiers and the Python set union as `dedup` of
the concatenation (the iteration order of a Python set is unspecified; the claim
is order-blind). `create_dynamics_models` (source lines 681-708) builds `wm`,
takes `encoder = wm.get_encoder()` and `ema_encoder = wm.get_ema_encoder()`
and hands those same module objects to the IDM, so the parameter lists of both
models contain the same encoder and EMA-encoder ids;
`torch.optim.AdamW(get_unique_params(idm, wm), ...)` (source line 738)
receives the result. -/

/-- Embedding of `get_unique_params` (source lines 728-732). -/
def get_unique_params (params1 params2 : List Nat) : List Nat :=
  (params1 ++ params2).dedup

/-- Parameter ids of the IDM from `create_dynamics_models`: the shared
encoder and EMA encoder plus the own modules of the IDM. -/
def idmParamIds (encIds emaIds idmOwn : List Nat) : List Nat :=
  encIds ++ emaIds ++ idmOwn

/-- Parameter ids of the WorldModel: the same shared encoder and EMA encoder
plus its own modules. -/
def wmParamIds (encIds emaIds wmOwn : List Nat) : List Nat :=
  encIds ++ emaIds ++ wmOwn

theorem initial_lr_pos : (0 : ℝ) < INITIAL_LR := by norm_num [INITIAL_LR]

theorem initial_lt_peak : INITIAL_LR < PEAK_LR := by norm_num [INITIAL_LR, PEAK_LR]

theorem warmup_lt_total {T : Nat} (hT : 0 < T) : warmupSteps T < T := by
  have h : 3 * T < T * 20 := by omega
  exact Nat.div_lt_iff_lt_mul (by norm_num) |>.mpr h

theorem lrAt_warmup_formula {T s : Nat} (hs : s < warmupSteps T) :
    lrAt T s = INITIAL_LR + (PEAK_LR - INITIAL_LR) * (s : ℝ) / (warmupSteps T : ℝ) := by
  have hI : INITIAL_LR ≠ 0 := ne_of_gt initial_lr_pos
  have hW : ((warmupSteps T : ℕ) : ℝ) ≠ 0 := by
    have hpos : 0 < warmupSteps T := Nat.lt_of_le_of_lt (Nat.zero_le s) hs
    exact_mod_cast Nat.pos_iff_ne_zero.mp hpos
  rw [lrAt, lr_lambda]
  simp only [if_pos hs]
  field_simp
  ring

theorem lrAt_cosine_formula {T s : Nat} (hs : warmupSteps T ≤ s) :
    lrAt T s = PEAK_LR + (FINAL_LR - PEAK_LR) *
      ((1 + Real.cos (Real.pi *
        (((s : ℝ) - (warmupSteps T : ℝ)) / ((T : ℝ) - (warmupSteps T : ℝ))) + Real.pi)) / 2) := by
  have hI : INITIAL_LR ≠ 0 := ne_of_gt initial_lr_pos
  rw [lrAt, lr_lambda]
  simp only [if_neg (Nat.not_lt.mpr hs)]
  field_simp
  ring

theorem lrAt_zero {T : Nat} (hW : 0 < warmupSteps T) : lrAt T 0 = INITIAL_LR := by
  rw [lrAt_warmup_formula hW]
  simp

theorem lrAt_warmup_boundary {T : Nat} (hW : 0 < warmupSteps T) :
    lrAt T (warmupSteps T) = PEAK_LR := by
  have hT : 0 < T := by
    by_contra h
    have : T = 0 := by omega
    simp [warmupSteps, this] at hW
  have hWT : warmupSteps T < T := warmup_lt_total hT
  rw [lrAt_cosine_formula le_rfl]
  have hne : ((T : ℝ) - (warmupSteps T : ℝ)) ≠ 0 := by
    have : (warmupSteps T : ℝ) < (T : ℝ) := by exact_mod_cast hWT
    linarith
  rw [sub_self, zero_div, mul_zero, zero_add, Real.cos_pi]
  norm_num

theorem lrAt_total {T : Nat} (hW : 0 < warmupSteps T) : lrAt T T = FINAL_LR := by
  have hT : 0 < T := by
    by_contra h
    have : T = 0 := by omega
    simp [warmupSteps, this] at hW
  have hWT : warmupSteps T < T := warmup_lt_total hT
  have hne : ((T : ℝ) - (warmupSteps T : ℝ)) ≠ 0 := by
    have : (warmupSteps T : ℝ) < (T : ℝ) := by exact_mod_cast hWT
    linarith
  rw [lrAt_cosine_formula (le_of_lt hWT)]
  rw [div_self hne]
  have hcos : Real.cos (Real.pi * 1 + Real.pi) = 1 := by
    rw [mul_one, ← two_mul, Real.cos_two_pi]
  rw [hcos]
  norm_num

theorem lrAt_warmup_strict_mono {T s t : Nat} (hst : s < t) (ht : t < warmupSteps T) :
    lrAt T s < lrAt T t := by
  have hs : s < warmupSteps T := Nat.lt_trans hst ht
  have hWpos : (0 : ℝ) < (warmupSteps T : ℝ) := by
    have : 0 < warmupSteps T := Nat.lt_of_le_of_lt (Nat.zero_le s) hs
    exact_mod_cast this
  rw [lrAt_warmup_formula hs, lrAt_warmup_formula ht]
  have hco : (0 : ℝ) < PEAK_LR - INITIAL_LR := by
    have := initial_lt_peak
    linarith
  have hcast : (s : ℝ) < (t : ℝ) := by exact_mod_cast hst
  have hmul : (PEAK_LR - INITIAL_LR) * (s : ℝ) < (PEAK_LR - INITIAL_LR) * (t : ℝ) :=
    mul_lt_mul_of_pos_left hcast hco
  have hdiv : (PEAK_LR - INITIAL_LR) * (s : ℝ) / (warmupSteps T : ℝ) <
      (PEAK_LR - INITIAL_LR) * (t : ℝ) / (warmupSteps T : ℝ) :=
    div_lt_div_of_pos_right hmul hWpos
  linarith

/-- C1: the claim states that both `IDM.label` and `IDM.label_chunked` take the
before image from time offset `-2`, the after image from offset `-1`, and pass
them to inference in that order. `IDM.label` does (first conjunct), but the
`_label` closure of `IDM.label_chunked` binds `after_obs` to offset `-2` and
`before_obs` to offset `-1`, so inference receives the offset `-1` image as its
first (before) argument and the offset `-2` image as its second (after)
argument — the reverse of the claimed order (second and third conjuncts),
exhibited on the concrete observation sequence `obs t = t`. -/
theorem C1_label_chunked_swaps_before_after :
    labelArgs (fun t => t) = ((-2 : Int), (-1 : Int)) ∧
    labelChunkedArgs (fun x => x) (fun t => t) = ((-1 : Int), (-2 : Int)) ∧
    labelChunkedArgs (fun x => x) (fun t => t) ≠ ((-2 : Int), (-1 : Int)) := by
  refine ⟨rfl, rfl, ?_⟩
  intro h
  have h1 := congrArg Prod.fst h
  simp [labelChunkedArgs] at h1

/-- C2: an invalid configuration — odd embedding dimension, image size not
divisible by patch size, or (when at least one transformer layer is built,
i.e. `depth > 0`) an attention-head count not dividing the embedding
dimension — makes `VisionEncoder.__init__` raise, so construction fails
before any forward pass exists. -/
theorem C2_invalid_config_fails_at_construction (c : VEConfig)
    (hbad : c.embed_dim % 2 = 1 ∨ c.img_size % c.patch_size ≠ 0 ∨
      (0 < c.depth ∧ c.embed_dim % c.num_heads ≠ 0)) :
    ∃ msg, VisionEncoder.init c = Except.error msg := by
  unfold VisionEncoder.init
  split
  · exact ⟨_, rfl⟩
  · split
    · exact ⟨_, rfl⟩
    · split
      · exact ⟨_, rfl⟩
      · split
        · exact ⟨_, rfl⟩
        · rename_i h1 h2 h3 h4
          exfalso
          simp only [not_not] at h1 h2 h3
          rcases hbad with h | h | h
          · omega
          · exact h h1
          · exact h4 ⟨h.1, fun hd => h.2 hd⟩

/-- Witness for C2 at the concrete configuration
`img_size=64, patch_size=16, in_chans=3, embed_dim=256, depth=6, num_heads=3`:
the head count 3 does not divide 256, and construction errors. -/
theorem C2_invalid_config_fails_at_construction_witness :
    ((256 : Nat) % 2 = 1 ∨ (64 : Nat) % 16 ≠ 0 ∨ (0 < 6 ∧ (256 : Nat) % 3 ≠ 0)) ∧
    ∃ msg, VisionEncoder.init ⟨64, 16, 3, 256, 6, 3⟩ = Except.error msg :=
  ⟨by decide, C2_invalid_config_fails_at_construction ⟨64, 16, 3, 256, 6, 3⟩ (by decide)⟩

/-- C3: the learning rate is a pure piecewise function of the step index:
below `warmupSteps T = ⌊0.15 T⌋` it is the linear interpolation from
`INITIAL_LR` toward `PEAK_LR` (and is strictly increasing there); from the
warmup boundary up to `T` it follows the cosine decay from `PEAK_LR` to
`FINAL_LR`; at step 0 it equals `INITIAL_LR`, at the warmup boundary it equals
`PEAK_LR`, and at step `T` it equals `FINAL_LR`. -/
theorem C3_lr_schedule_piecewise (T : Nat) (hW : 0 < warmupSteps T) :
    (∀ s, s < warmupSteps T →
        lrAt T s = INITIAL_LR + (PEAK_LR - INITIAL_LR) * (s : ℝ) / (warmupSteps T : ℝ)) ∧
    (∀ s t, s < t → t < warmupSteps T → lrAt T s < lrAt T t) ∧
    (∀ s, warmupSteps T ≤ s → s ≤ T →
        lrAt T s = PEAK_LR + (FINAL_LR - PEAK_LR) *
          ((1 + Real.cos (Real.pi *
            (((s : ℝ) - (warmupSteps T : ℝ)) / ((T : ℝ) - (warmupSteps T : ℝ))) +
            Real.pi)) / 2)) ∧
    lrAt T 0 = INITIAL_LR ∧
    lrAt T (warmupSteps T) = PEAK_LR ∧
    lrAt T T = FINAL_LR :=
  ⟨fun _ hs => lrAt_warmup_formula hs,
   fun _ _ hst ht => lrAt_warmup_strict_mono hst ht,
   fun _ hs _ => lrAt_cosine_formula hs,
   lrAt_zero hW,
   lrAt_warmup_boundary hW,
   lrAt_total hW⟩

/-- Witness for C3 at `total_steps = 100` (warmup boundary 15): the
hypothesis holds and the three endpoint values follow. -/
theorem C3_lr_schedule_piecewise_witness :
    0 < warmupSteps 100 ∧
    (lrAt 100 0 = INITIAL_LR ∧ lrAt 100 (warmupSteps 100) = PEAK_LR ∧
      lrAt 100 100 = FINAL_LR) :=
  ⟨by decide, (C3_lr_schedule_piecewise 100 (by decide)).2.2.2⟩

/-- C4: after `update_ema m`, every paired (shadow, online) parameter satisfies
`new_shadow = m * old_shadow + (1 - m) * online` as a pure convex combination,
the flag and gradient of the shadow are untouched, and no other parameter is
modified (the online-encoder and remaining parameter lists are returned
unchanged). -/
theorem C4_update_ema_convex_combination (m : ℚ) (s : TrainState) (i : Nat)
    (h1 : i < s.ema.length) (h2 : i < s.enc.length) :
    ((update_ema m s).ema.getD i default).val =
      m * (s.ema.getD i default).val + (1 - m) * (s.enc.getD i default).val ∧
    ((update_ema m s).ema.getD i default).reqGrad = (s.ema.getD i default).reqGrad ∧
    ((update_ema m s).ema.getD i default).grad = (s.ema.getD i default).grad ∧
    (update_ema m s).enc = s.enc ∧
    (update_ema m s).other = s.other := by
  have hz : i < ((s.ema.zip s.enc).map fun pq =>
      { pq.1 with val := pq.1.val * m + pq.2.val * (1 - m) } : List Param).length := by
    simp only [List.length_map, List.length_zip]
    omega
  have hzz : i < (s.ema.zip s.enc).length := by
    simp only [List.length_zip]; omega
  refine ⟨?_, ?_, ?_, rfl, rfl⟩ <;>
    simp only [update_ema, List.getD_eq_getElem _ _ hz, List.getD_eq_getElem _ _ h1,
      List.getD_eq_getElem _ _ h2, List.getElem_map, List.getElem_zip]
  ring

/-- Witness for C4 at a concrete state with one parameter per list and
momentum `9/10`. -/
theorem C4_update_ema_convex_combination_witness :
    (0 < ([({ val := 2, reqGrad := false, grad := none } : Param)] : List Param).length ∧
      0 < ([({ val := 6, reqGrad := true, grad := none } : Param)] : List Param).length) ∧
    ((update_ema (9/10)
        { enc := [{ val := 6, reqGrad := true, grad := none }],
          ema := [{ val := 2, reqGrad := false, grad := none }],
          other := [{ val := 5, reqGrad := true, grad := none }] }).ema.getD 0 default).val =
      (9/10) * (([({ val := 2, reqGrad := false, grad := none } : Param)] :
          List Param).getD 0 default).val +
        (1 - 9/10) * (([({ val := 6, reqGrad := true, grad := none } : Param)] :
          List Param).getD 0 default).val :=
  ⟨⟨by decide, by decide⟩,
    (C4_update_ema_convex_combination (9/10)
      { enc := [{ val := 6, reqGrad := true, grad := none }],
        ema := [{ val := 2, reqGrad := false, grad := none }],
        other := [{ val := 5, reqGrad := true, grad := none }] } 0
      (by decide) (by decide)).1⟩

theorem applyBackward_of_frozen (g : Nat → ℚ) :
    ∀ ps : List Param, (∀ p ∈ ps, p.reqGrad = false) → applyBackward g ps = ps := by
  intro ps
  induction ps generalizing g with
  | nil => intro _; rfl
  | cons p t ih =>
    intro h
    have hp2 := h p (List.mem_cons_self p t)
    rw [applyBackward, List.mapIdx_cons]
    simp only [hp2, Bool.false_eq_true, if_false]
    have ht := ih (fun i => g (i + 1)) (fun q hq => h q (List.mem_cons_of_mem p hq))
    rw [applyBackward] at ht
    rw [ht]

theorem applyOptStep_of_no_grad (upd : ℚ → ℚ → ℚ) :
    ∀ ps : List Param, (∀ p ∈ ps, p.grad = none) → applyOptStep upd ps = ps := by
  intro ps
  induction ps with
  | nil => intro _; rfl
  | cons p t ih =>
    intro h
    have hp := h p (List.mem_cons_self p t)
    rw [applyOptStep, List.map_cons]
    rw [applyOptStep] at ih
    rw [ih (fun q hq => h q (List.mem_cons_of_mem p hq)), hp]

theorem applyZeroGrad_of_no_grad :
    ∀ ps : List Param, (∀ p ∈ ps, p.grad = none) → applyZeroGrad ps = ps := by
  intro ps
  induction ps with
  | nil => intro _; rfl
  | cons p t ih =>
    intro h
    have hp := h p (List.mem_cons_self p t)
    rw [applyZeroGrad, List.map_cons]
    rw [applyZeroGrad] at ih
    rw [ih (fun q hq => h q (List.mem_cons_of_mem p hq))]
    cases p
    simp_all

theorem applyZeroGrad_grad_none {ps : List Param} :
    ∀ p ∈ applyZeroGrad ps, p.grad = none := by
  intro p hp
  rw [applyZeroGrad] at hp
  obtain ⟨q, _, rfl⟩ := List.mem_map.mp hp
  rfl

theorem applyZeroGrad_reqGrad {ps : List Param} (hreq : ∀ p ∈ ps, p.reqGrad = false) :
    ∀ p ∈ applyZeroGrad ps, p.reqGrad = false := by
  intro p hp
  rw [applyZeroGrad] at hp
  obtain ⟨q, hq, rfl⟩ := List.mem_map.mp hp
  exact hreq q hq

theorem update_ema_preserves_isolation {m : ℚ} {s : TrainState}
    (h : emaIsolated s) : emaIsolated (update_ema m s) := by
  intro p hp
  rw [update_ema] at hp
  obtain ⟨pq, hpq, rfl⟩ := List.mem_map.mp hp
  exact h pq.1 (List.of_mem_zip hpq).1

theorem execOp_preserves_isolation (upd : ℚ → ℚ → ℚ) (gE gA gO : Nat → ℚ)
    {s : TrainState} (op : TrainOp) (h : emaIsolated s) :
    emaIsolated (execOp upd gE gA gO op s) := by
  cases op with
  | labelOp => exact h
  | zeroGrad =>
    intro p hp
    exact ⟨applyZeroGrad_reqGrad (fun q hq => (h q hq).1) p hp, applyZeroGrad_grad_none p hp⟩
  | backward =>
    rw [execOp]
    intro p hp
    rw [applyBackward_of_frozen gA s.ema (fun q hq => (h q hq).1)] at hp
    exact h p hp
  | optStep =>
    rw [execOp]
    intro p hp
    rw [applyOptStep_of_no_grad upd s.ema (fun q hq => (h q hq).2)] at hp
    exact h p hp
  | updateEMA m2 => exact update_ema_preserves_isolation h

theorem execOps_preserves_isolation (upd : ℚ → ℚ → ℚ) (gE gA gO : Nat → ℚ)
    (ops : List TrainOp) {s : TrainState} (h : emaIsolated s) :
    emaIsolated (execOps upd gE gA gO ops s) := by
  induction ops generalizing s with
  | nil => exact h
  | cons op t ih => exact ih (execOp_preserves_isolation upd gE gA gO op h)

theorem execOp_ema_unchanged (upd : ℚ → ℚ → ℚ) (gE gA gO : Nat → ℚ)
    {s : TrainState} (op : TrainOp) (hop : isEMAOp op = false) (h : emaIsolated s) :
    (execOp upd gE gA gO op s).ema = s.ema := by
  cases op with
  | labelOp => rfl
  | zeroGrad => exact applyZeroGrad_of_no_grad s.ema (fun q hq => (h q hq).2)
  | backward => exact applyBackward_of_frozen gA s.ema (fun q hq => (h q hq).1)
  | optStep => exact applyOptStep_of_no_grad upd s.ema (fun q hq => (h q hq).2)
  | updateEMA m2 => simp [isEMAOp] at hop

theorem execOps_ema_unchanged (upd : ℚ → ℚ → ℚ) (gE gA gO : Nat → ℚ)
    (ops : List TrainOp) {s : TrainState} (hop : ∀ op ∈ ops, isEMAOp op = false)
    (h : emaIsolated s) : (execOps upd gE gA gO ops s).ema = s.ema := by
  induction ops generalizing s with
  | nil => rfl
  | cons op t ih =>
    have h1 := execOp_ema_unchanged upd gE gA gO op (hop op (List.mem_cons_self op t)) h
    have h2 := ih (fun o ho => hop o (List.mem_cons_of_mem op ho))
      (execOp_preserves_isolation upd gE gA gO op h)
    rw [execOps] at h2 ⊢
    rw [List.foldl_cons]
    rw [h2, h1]

theorem execOps_append (upd : ℚ → ℚ → ℚ) (gE gA gO : Nat → ℚ) (l1 l2 : List TrainOp)
    (s : TrainState) :
    execOps upd gE gA gO (l1 ++ l2) s =
      execOps upd gE gA gO l2 (execOps upd gE gA gO l1 s) := by
  simp [execOps, List.foldl_append]

theorem freezeEMA_isolated {s : TrainState} (hg : ∀ p ∈ s.ema, p.grad = none) :
    emaIsolated (freezeEMA s) := by
  intro p hp
  rw [freezeEMA] at hp
  obtain ⟨q, hq, rfl⟩ := List.mem_map.mp hp
  exact ⟨rfl, hg q hq⟩

theorem zeroGrad_emaVals {upd : ℚ → ℚ → ℚ} {gE gA gO : Nat → ℚ} {s : TrainState} :
    emaVals (execOp upd gE gA gO TrainOp.zeroGrad s) = emaVals s := by
  simp [execOp, emaVals, applyZeroGrad, List.map_map, Function.comp]

/-- C5: in a training step starting from a state whose EMA parameters carry no
stale gradients, after the constructor freeze (`freezeEMA`): (1) `train_step`
contains exactly one EMA-update operation; (2) that operation sits after the
optimizer step and is the unique EMA update; (3) along every prefix up to and
including the optimizer step the EMA parameters are unchanged, so they are
modified only by the momentum interpolation; (4) at every point of the step
the EMA parameters hold no gradient; (5) the final EMA values are exactly
those produced by `update_ema m` at the post-optimizer state. -/
theorem C5_ema_isolation_and_ordering (upd : ℚ → ℚ → ℚ) (gE gA gO : Nat → ℚ)
    (m : ℚ) (s : TrainState) (hg : ∀ p ∈ s.ema, p.grad = none) :
    ((trainStepOps m).filter isEMAOp).length = 1 ∧
    (∃ i j : Nat, i < j ∧ (trainStepOps m)[i]? = some TrainOp.optStep ∧
      (trainStepOps m)[j]? = some (TrainOp.updateEMA m) ∧
      ∀ (k : Nat) (m2 : ℚ), (trainStepOps m)[k]? = some (TrainOp.updateEMA m2) → k = j) ∧
    (∀ n, n ≤ 5 →
      (execOps upd gE gA gO ((trainStepOps m).take n) (freezeEMA s)).ema =
        (freezeEMA s).ema) ∧
    (∀ n, ∀ p ∈ (execOps upd gE gA gO ((trainStepOps m).take n) (freezeEMA s)).ema,
      p.grad = none) ∧
    emaVals (execOps upd gE gA gO (trainStepOps m) (freezeEMA s)) =
      emaVals (update_ema m
        (execOps upd gE gA gO ((trainStepOps m).take 5) (freezeEMA s))) := by
  have hiso : emaIsolated (freezeEMA s) := freezeEMA_isolated hg
  have h5 : ∀ op ∈ (trainStepOps m).take 5, isEMAOp op = false := by
    intro op hop
    fin_cases hop <;> rfl
  refine ⟨rfl, ?_, ?_, ?_, ?_⟩
  · refine ⟨4, 5, by omega, rfl, rfl, ?_⟩
    intro k m2 hk
    have hlen : k < 8 := by
      by_contra hcon
      have hnone : (trainStepOps m)[k]? = none := by
        apply List.getElem?_eq_none
        simp only [trainStepOps, List.length_cons, List.length_nil]
        omega
      rw [hnone] at hk
      exact Option.noConfusion hk
    interval_cases k <;> simp_all [trainStepOps]
  · intro n hn
    have heq : (trainStepOps m).take n = ((trainStepOps m).take 5).take n := by
      rw [List.take_take, Nat.min_eq_left hn]
    rw [heq]
    exact execOps_ema_unchanged upd gE gA gO _
      (fun op hop => h5 op (List.take_subset n _ hop)) hiso
  · intro n
    exact fun p hp => (execOps_preserves_isolation upd gE gA gO _ hiso p hp).2
  · have hsplit : trainStepOps m = (trainStepOps m).take 5 ++
        [TrainOp.updateEMA m, TrainOp.zeroGrad, TrainOp.zeroGrad] := rfl
    generalize hs5 : execOps upd gE gA gO ((trainStepOps m).take 5) (freezeEMA s) = s5
    conv_lhs => rw [hsplit]
    rw [execOps_append upd gE gA gO ((trainStepOps m).take 5)
      [TrainOp.updateEMA m, TrainOp.zeroGrad, TrainOp.zeroGrad] (freezeEMA s)]
    rw [hs5]
    simp only [execOps, List.foldl_cons, List.foldl_nil]
    exact zeroGrad_emaVals.trans zeroGrad_emaVals

/-- Witness for C5 at a concrete state (one parameter per list, stale-free
gradients) with momentum `99/100` and a concrete optimizer rule. -/
theorem C5_ema_isolation_and_ordering_witness :
    (∀ p ∈ ([({ val := 2, reqGrad := false, grad := none } : Param)] : List Param),
      p.grad = none) ∧
    ((trainStepOps (99/100)).filter isEMAOp).length = 1 :=
  ⟨by decide,
    (C5_ema_isolation_and_ordering (fun v g => v - g) (fun _ => 1) (fun _ => 1)
      (fun _ => 1) (99/100)
      { enc := [{ val := 6, reqGrad := true, grad := none }],
        ema := [{ val := 2, reqGrad := false, grad := none }],
        other := [{ val := 5, reqGrad := true, grad := none }] }
      (by decide)).1⟩

theorem topkSmallestIdx_nodup (vals : List ℚ) (k : Nat) :
    (topkSmallestIdx vals k).Nodup := by
  apply List.Nodup.sublist (List.take_sublist k _)
  exact (List.perm_insertionSort _ _).nodup_iff.mpr (List.nodup_range _)

theorem topkSmallestIdx_mem_lt {vals : List ℚ} {k x : Nat}
    (hx : x ∈ topkSmallestIdx vals k) : x < vals.length := by
  have h1 : x ∈ List.insertionSort (fun i j => vals.getD i 0 ≤ vals.getD j 0)
      (List.range vals.length) := List.mem_of_mem_take hx
  exact List.mem_range.mp ((List.perm_insertionSort _ _).mem_iff.mp h1)

theorem topkSmallestIdx_length {vals : List ℚ} {k : Nat} (hk : k ≤ vals.length) :
    (topkSmallestIdx vals k).length = k := by
  rw [topkSmallestIdx, List.length_take, (List.perm_insertionSort _ _).length_eq,
    List.length_range]
  exact Nat.min_eq_left hk

theorem keepMask_count_true (P : Nat) (idxs : List Nat) (hnd : idxs.Nodup)
    (hlt : ∀ i ∈ idxs, i < P) : (keepMask P idxs).count true = idxs.length := by
  have h1 : (keepMask P idxs).count true =
      ((List.range P).filter fun p => decide (p ∈ idxs)).length := by
    rw [keepMask, List.count, List.countP_map, List.countP_eq_length_filter]
    congr 1
    congr 1
    funext p
    simp [Function.comp]
  rw [h1]
  have hperm : List.Perm ((List.range P).filter fun p => decide (p ∈ idxs)) idxs := by
    apply List.perm_of_nodup_nodup_toFinset_eq ((List.nodup_range P).filter _) hnd
    ext x
    simp only [List.mem_toFinset, List.mem_filter, List.mem_range, decide_eq_true_eq]
    exact ⟨And.right, fun h => ⟨hlt x h, h⟩⟩
  exact hperm.length_eq

theorem scatterRows_not_mem {W : Type} [Inhabited W] {P : Nat} (idxs : List Nat)
    (vals : List W) (fill : W) {p : Nat} (hp : p < P) (hmem : p ∉ idxs) :
    (scatterRows P idxs vals fill).getD p default = fill := by
  have hlen : p < (scatterRows P idxs vals fill).length := by
    simpa [scatterRows] using hp
  rw [List.getD_eq_getElem _ _ hlen]
  simp [scatterRows, hmem]

theorem scatterRows_mem {W : Type} [Inhabited W] {P : Nat} {idxs : List Nat}
    (vals : List W) (fill : W) (hnd : idxs.Nodup) {j : Nat} (hj : j < idxs.length)
    (hP : idxs.getD j 0 < P) :
    (scatterRows P idxs vals fill).getD (idxs.getD j 0) default = vals.getD j fill := by
  have hlen : idxs.getD j 0 < (scatterRows P idxs vals fill).length := by
    simpa [scatterRows] using hP
  have hget : idxs.getD j 0 = idxs[j] := List.getD_eq_getElem _ _ hj
  have hmem : idxs.getD j 0 ∈ idxs := by
    rw [hget]
    exact List.mem_iff_getElem.mpr ⟨j, hj, rfl⟩
  rw [List.getD_eq_getElem _ _ hlen]
  simp only [scatterRows, List.getElem_map, List.getElem_range]
  rw [if_pos hmem, hget, List.indexOf_getElem hnd j hj]

/-- C6: with `P` patches and retention fraction `top_pct`, the keep mask marks
exactly `max(1, ⌊P * top_pct⌋)` positions as kept, the top-k indices are that
many distinct patch positions, every non-kept position of the resulting
after-context equals the single learned drop token (the same token for every
dropped position and every sample), and the transformer outputs of the kept patches
are scattered back to their original grid positions. -/
theorem C6_keep_mask_and_drop_token {V W : Type} [Inhabited V] [Inhabited W]
    (P : Nat) (top_pct : ℚ) (vals : List ℚ) (after_patch : List V)
    (run_transformer : List V → List W) (drop_token : W)
    (hv : vals.length = P) (ha : after_patch.length = P)
    (hkP : topK P top_pct ≤ P) :
    (keepMask P (topkSmallestIdx vals (topK P top_pct))).count true =
      max 1 (Int.toNat ⌊(P : ℚ) * top_pct⌋) ∧
    (topkSmallestIdx vals (topK P top_pct)).Nodup ∧
    (topkSmallestIdx vals (topK P top_pct)).length = topK P top_pct ∧
    (∀ p, p < P → p ∉ topkSmallestIdx vals (topK P top_pct) →
      (encodeAfterTrain run_transformer drop_token after_patch
        (topkSmallestIdx vals (topK P top_pct))).getD p default = drop_token) ∧
    (∀ j, j < topK P top_pct →
      (encodeAfterTrain run_transformer drop_token after_patch
        (topkSmallestIdx vals (topK P top_pct))).getD
          ((topkSmallestIdx vals (topK P top_pct)).getD j 0) default =
        (run_transformer (gatherRows after_patch
          (topkSmallestIdx vals (topK P top_pct)))).getD j drop_token) := by
  have hklen : (topkSmallestIdx vals (topK P top_pct)).length = topK P top_pct :=
    topkSmallestIdx_length (hv ▸ hkP)
  have hnd := topkSmallestIdx_nodup vals (topK P top_pct)
  have hlt : ∀ i ∈ topkSmallestIdx vals (topK P top_pct), i < P :=
    fun i hi => hv ▸ topkSmallestIdx_mem_lt hi
  refine ⟨?_, hnd, hklen, ?_, ?_⟩
  · rw [keepMask_count_true P _ hnd hlt, hklen]
    rfl
  · intro p hp hpmem
    rw [encodeAfterTrain]
    exact scatterRows_not_mem _ _ _ (ha ▸ hp) hpmem
  · intro j hj
    have hjlen : j < (topkSmallestIdx vals (topK P top_pct)).length := by omega
    rw [encodeAfterTrain]
    apply scatterRows_mem _ _ hnd hjlen
    have hmem : (topkSmallestIdx vals (topK P top_pct)).getD j 0 ∈
        topkSmallestIdx vals (topK P top_pct) := by
      rw [List.getD_eq_getElem _ _ hjlen]
      exact List.mem_iff_getElem.mpr ⟨j, hjlen, rfl⟩
    exact ha ▸ hlt _ hmem

/-- Witness for C6: `P = 4` patches, retention `top_pct = 1/2` (so two kept
patches), concrete random values and patch rows, the transformer instantiated
as an elementwise shift. -/
theorem C6_keep_mask_and_drop_token_witness :
    (([3, 1, 2, 0] : List ℚ).length = 4 ∧ ([10, 20, 30, 40] : List ℚ).length = 4 ∧
      topK 4 (1/2) ≤ 4) ∧
    (keepMask 4 (topkSmallestIdx [3, 1, 2, 0] (topK 4 (1/2)))).count true =
      max 1 (Int.toNat ⌊((4 : Nat) : ℚ) * (1/2)⌋) :=
  ⟨⟨rfl, rfl, by norm_num [topK]⟩,
    (C6_keep_mask_and_drop_token 4 (1/2) [3, 1, 2, 0] [10, 20, 30, 40]
      (fun l => l.map fun x => x + 1) 99 rfl rfl (by norm_num [topK])).1⟩

theorem arDecode_actions_length {V A M : Type} (decoder : List V → M → V)
    (action_head : V → A) (mask_token : V) (memory : Nat → M) (n : Nat) :
    (arDecode decoder action_head mask_token memory n).1.length = n := by
  induction n with
  | zero => rfl
  | succ k ih => simp [arDecode, ih]

theorem randintVal_mem {low high r : Nat} (h : low < high) :
    low ≤ randintVal low high r ∧ randintVal low high r < high := by
  have hmod : r % (high - low) < high - low := Nat.mod_lt r (by omega)
  rw [randintVal]
  omega

/-- C7: in evaluation mode `IDM.forward` returns exactly `num_eval_tokens`
action vectors; in training mode the returned count is
`randint(min_tokens, max_tokens + 1)`, always within `[min_tokens, max_tokens]`
inclusive and attaining every value of that range for some draw; and the count
never depends on the decoder, the action head, the mask token or the memory
contents — it is externally determined, never content-driven. -/
theorem C7_token_count_contracts {V A M : Type} (decoder : List V → M → V)
    (action_head : V → A) (mask_token : V) (memory : Nat → M) (memC : M)
    (min_tokens max_tokens : Nat) (h : min_tokens ≤ max_tokens) :
    (∀ num_eval_tokens,
      (idmForwardEval decoder action_head mask_token memC num_eval_tokens).length =
        num_eval_tokens) ∧
    (∀ r,
      min_tokens ≤ (idmForwardTrain decoder action_head mask_token memory
        min_tokens max_tokens r).length ∧
      (idmForwardTrain decoder action_head mask_token memory
        min_tokens max_tokens r).length ≤ max_tokens) ∧
    (∀ v, min_tokens ≤ v → v ≤ max_tokens →
      ∃ r, (idmForwardTrain decoder action_head mask_token memory
        min_tokens max_tokens r).length = v) ∧
    (∀ r1 r2, r1 < max_tokens + 1 - min_tokens → r2 < max_tokens + 1 - min_tokens →
      (idmForwardTrain decoder action_head mask_token memory
        min_tokens max_tokens r1).length =
        (idmForwardTrain decoder action_head mask_token memory
          min_tokens max_tokens r2).length →
      r1 = r2) ∧
    (∀ r (decoder2 : List V → M → V) (action_head2 : V → A) (mask_token2 : V)
        (memory2 : Nat → M),
      (idmForwardTrain decoder action_head mask_token memory
        min_tokens max_tokens r).length =
      (idmForwardTrain decoder2 action_head2 mask_token2 memory2
        min_tokens max_tokens r).length) := by
  have hlt : min_tokens < max_tokens + 1 := by omega
  refine ⟨fun n => arDecode_actions_length _ _ _ _ n, fun r => ?_, fun v hv1 hv2 => ?_,
    fun r1 r2 hr1 hr2 hlen => ?_, ?_⟩
  · rw [idmForwardTrain, arDecode_actions_length]
    have := randintVal_mem (r := r) hlt
    omega
  · refine ⟨v - min_tokens, ?_⟩
    rw [idmForwardTrain, arDecode_actions_length, randintVal]
    have : (v - min_tokens) % (max_tokens + 1 - min_tokens) = v - min_tokens :=
      Nat.mod_eq_of_lt (by omega)
    omega
  · rw [idmForwardTrain, idmForwardTrain, arDecode_actions_length,
      arDecode_actions_length, randintVal, randintVal] at hlen
    have h1 : r1 % (max_tokens + 1 - min_tokens) = r1 := Nat.mod_eq_of_lt hr1
    have h2 : r2 % (max_tokens + 1 - min_tokens) = r2 := Nat.mod_eq_of_lt hr2
    omega
  · intro r d2 a2 m2 mem2
    rw [idmForwardTrain, idmForwardTrain, arDecode_actions_length,
      arDecode_actions_length]

/-- Witness for C7 with the repo defaults `min_tokens = 2`, `max_tokens = 10`,
`num_eval_tokens = 10`, over concrete degenerate decoder components. -/
theorem C7_token_count_contracts_witness :
    (2 : Nat) ≤ 10 ∧
    (idmForwardEval (fun (_ : List Nat) (_ : Nat) => 0) (fun v => v) 0 0 10).length = 10 :=
  ⟨by decide,
    (C7_token_count_contracts (fun (_ : List Nat) (_ : Nat) => 0) (fun v => v) 0
      (fun _ => 0) 0 2 10 (by decide)).1 10⟩

/-- C8: `WorldModel.label` returns one scalar per encoder layer — a list of
length `D` (e.g. 3 entries for a depth-3 encoder) — whose `d`-th entry is the
elementwise squared error between the prediction and the EMA-encoded true
future latent state, averaged over the batch and patch dimensions (each
per-batch-per-patch contribution being the mean squared error across its
embedding channels): it equals both the flat average over all `B*P*E`
positions and the batch/patch average of the per-position mean squared
error. -/
theorem C8_label_loss_per_layer {Img Act : Type} {B D P E : Nat}
    (wm_forward : Img → Act → Fin B → Fin D → Fin P → Fin E → ℚ)
    (ema_encoder : Img → Fin B → Fin D → Fin P → Fin E → ℚ)
    (obs : Int → Img) (la : Act) :
    (wmLabel wm_forward ema_encoder obs la).length = D ∧
    ∀ d : Fin D,
      (wmLabel wm_forward ema_encoder obs la).getD (d : Nat) 0 =
        (∑ b, ∑ p, ∑ e,
          (wm_forward (obs (-2)) la b d p e - ema_encoder (obs (-1)) b d p e) ^ 2) /
          ((B : ℚ) * P * E) ∧
      (wmLabel wm_forward ema_encoder obs la).getD (d : Nat) 0 =
        (∑ b, ∑ p,
          ((∑ e,
            (wm_forward (obs (-2)) la b d p e - ema_encoder (obs (-1)) b d p e) ^ 2) /
            (E : ℚ))) / ((B : ℚ) * P) := by
  have hlen : (wmLabel wm_forward ema_encoder obs la).length = D := by
    rw [wmLabel, List.length_ofFn]
  refine ⟨hlen, fun d => ?_⟩
  have hd : (d : Nat) < (wmLabel wm_forward ema_encoder obs la).length := by
    rw [hlen]; exact d.isLt
  have hval : (wmLabel wm_forward ema_encoder obs la).getD (d : Nat) 0 =
      (∑ b, ∑ p, ∑ e,
        (wm_forward (obs (-2)) la b d p e - ema_encoder (obs (-1)) b d p e) ^ 2) /
        ((B : ℚ) * P * E) := by
    rw [List.getD_eq_getElem _ _ hd]
    simp only [wmLabel, List.getElem_ofFn, meanDims023, mseLossNone, Fin.eta]
  refine ⟨hval, ?_⟩
  rw [hval]
  have hsum : ∀ b : Fin B,
      (∑ p, ((∑ e,
        (wm_forward (obs (-2)) la b d p e - ema_encoder (obs (-1)) b d p e) ^ 2) /
        (E : ℚ))) =
      (∑ p, ∑ e,
        (wm_forward (obs (-2)) la b d p e - ema_encoder (obs (-1)) b d p e) ^ 2) /
        (E : ℚ) :=
    fun b => (Finset.sum_div _ _ _).symm
  conv_rhs =>
    rw [Finset.sum_congr rfl fun b _ => hsum b, ← Finset.sum_div, div_div]
  rw [mul_comm ((E : ℚ)) _]

/-! C9 helper lemmas : locality of masked attention. -/

theorem make_causal_mask_none_iff {L : Nat} (i j : Fin L) :
    make_causal_mask L i j = none ↔ (i : Nat) < (j : Nat) := by
  rw [make_causal_mask]
  by_cases h : (i : Nat) + 1 ≤ (j : Nat)
  · simp [h]
    omega
  · simp [h]
    omega

theorem generate_causal_mask_iff {L : Nat} (i j : Fin L) :
    generate_causal_mask L i j = true ↔ (i : Nat) < (j : Nat) := by
  rw [generate_causal_mask]
  simp
  omega

theorem maskedExp_congr_le {L dm : Nat} {M : Type} (ly : DecLayer dm M) {n : Nat}
    {tgt1 tgt2 : Fin L → Fin dm → ℝ}
    (h : ∀ j : Fin L, (j : Nat) ≤ n → tgt1 j = tgt2 j)
    {i : Fin L} (hi : (i : Nat) ≤ n) (j : Fin L) :
    maskedExp ly (make_causal_mask L) tgt1 i j =
      maskedExp ly (make_causal_mask L) tgt2 i j := by
  rw [maskedExp, maskedExp, make_causal_mask]
  by_cases hij : (i : Nat) + 1 ≤ (j : Nat)
  · simp [hij]
  · have hji : (j : Nat) ≤ n := by omega
    simp only [hij, if_false]
    rw [h i hi, h j hji]

theorem attnWeight_congr_le {L dm : Nat} {M : Type} (ly : DecLayer dm M) {n : Nat}
    {tgt1 tgt2 : Fin L → Fin dm → ℝ}
    (h : ∀ j : Fin L, (j : Nat) ≤ n → tgt1 j = tgt2 j)
    {i : Fin L} (hi : (i : Nat) ≤ n) (j : Fin L) :
    attnWeight ly (make_causal_mask L) tgt1 i j =
      attnWeight ly (make_causal_mask L) tgt2 i j := by
  rw [attnWeight, attnWeight, maskedExp_congr_le ly h hi j]
  congr 1
  exact Finset.sum_congr rfl fun j2 _ => maskedExp_congr_le ly h hi j2

theorem attnWeight_masked_zero {L dm : Nat} {M : Type} (ly : DecLayer dm M)
    (tgt : Fin L → Fin dm → ℝ) {i j : Fin L} (hij : (i : Nat) + 1 ≤ (j : Nat)) :
    attnWeight ly (make_causal_mask L) tgt i j = 0 := by
  rw [attnWeight, maskedExp, make_causal_mask]
  simp [hij]

theorem selfAttnOut_congr_le {L dm : Nat} {M : Type} (ly : DecLayer dm M) {n : Nat}
    {tgt1 tgt2 : Fin L → Fin dm → ℝ}
    (h : ∀ j : Fin L, (j : Nat) ≤ n → tgt1 j = tgt2 j)
    {i : Fin L} (hi : (i : Nat) ≤ n) :
    selfAttnOut ly (make_causal_mask L) tgt1 i =
      selfAttnOut ly (make_causal_mask L) tgt2 i := by
  funext e
  rw [selfAttnOut, selfAttnOut]
  apply Finset.sum_congr rfl
  intro j _
  by_cases hij : (i : Nat) + 1 ≤ (j : Nat)
  · rw [attnWeight_masked_zero ly tgt1 hij, attnWeight_masked_zero ly tgt2 hij]
    ring
  · have hji : (j : Nat) ≤ n := by omega
    rw [attnWeight_congr_le ly h hi j, h j hji]

theorem decLayerApply_congr_le {L dm : Nat} {M : Type} (ly : DecLayer dm M)
    (memory : M) {n : Nat} {tgt1 tgt2 : Fin L → Fin dm → ℝ}
    (h : ∀ j : Fin L, (j : Nat) ≤ n → tgt1 j = tgt2 j) :
    ∀ i : Fin L, (i : Nat) ≤ n →
      decLayerApply ly (make_causal_mask L) memory tgt1 i =
        decLayerApply ly (make_causal_mask L) memory tgt2 i := by
  intro i hi
  rw [decLayerApply, decLayerApply]
  rw [h i hi, selfAttnOut_congr_le ly h hi]

theorem decoderApply_congr_le {L dm : Nat} {M : Type}
    (layers : List (DecLayer dm M)) (memory : M) {n : Nat} :
    ∀ {tgt1 tgt2 : Fin L → Fin dm → ℝ},
      (∀ j : Fin L, (j : Nat) ≤ n → tgt1 j = tgt2 j) →
      ∀ i : Fin L, (i : Nat) ≤ n →
        decoderApply layers (make_causal_mask L) memory tgt1 i =
          decoderApply layers (make_causal_mask L) memory tgt2 i := by
  induction layers with
  | nil => intro tgt1 tgt2 h i hi; exact h i hi
  | cons ly t ih =>
    intro tgt1 tgt2 h i hi
    rw [decoderApply, decoderApply, List.foldl_cons, List.foldl_cons]
    exact ih (decLayerApply_congr_le ly memory h) i hi

/-- C9: `generate_causal_mask` forbids attention exactly at the strictly
upper-triangular entries `(i, j)` with `j > i`, `_make_causal_mask` places its
`-inf` (modelled `none`) at exactly those entries, and consequently the
autoregressive decoder run under that mask is future-blind: two target
sequences that agree at every position up to `i` yield identical decoder
outputs at every position up to `i`, whatever the layers, memory and the
differing future positions. -/
theorem C9_causal_mask_future_invariance {L dm : Nat} {M : Type}
    (layers : List (DecLayer dm M)) (memory : M) (n : Nat)
    (tgt1 tgt2 : Fin L → Fin dm → ℝ)
    (h : ∀ j : Fin L, (j : Nat) ≤ n → tgt1 j = tgt2 j) :
    (∀ i j : Fin L, generate_causal_mask L i j = true ↔ (i : Nat) < (j : Nat)) ∧
    (∀ i j : Fin L, make_causal_mask L i j = none ↔ (i : Nat) < (j : Nat)) ∧
    (∀ i : Fin L, (i : Nat) ≤ n →
      decoderApply layers (make_causal_mask L) memory tgt1 i =
        decoderApply layers (make_causal_mask L) memory tgt2 i) :=
  ⟨generate_causal_mask_iff, make_causal_mask_none_iff,
    decoderApply_congr_le layers memory h⟩

/-- Witness for C9 at `L = 2`, one concrete decoder layer over a unit memory,
with the two target sequences agreeing at position 0. -/
theorem C9_causal_mask_future_invariance_witness :
    (∀ j : Fin 2, (j : Nat) ≤ 0 →
      (fun _ : Fin 2 => fun _ : Fin 1 => (0 : ℝ)) j =
        (fun _ : Fin 2 => fun _ : Fin 1 => (0 : ℝ)) j) ∧
    (∀ i j : Fin 2, generate_causal_mask 2 i j = true ↔ (i : Nat) < (j : Nat)) :=
  ⟨fun _ _ => rfl,
    (C9_causal_mask_future_invariance
      ([⟨fun _ _ => 0, id, id, fun v _ => v, id, id, id⟩] : List (DecLayer 1 Unit))
      () 0 (fun _ _ => 0) (fun _ _ => 0) (fun _ _ => rfl)).1⟩

/-- C10: `get_unique_params` returns each parameter belonging to either model
exactly once, even when shared: its result is duplicate-free, contains
precisely the union of the parameters of the two models, and in particular each
vision-encoder parameter shared between the IDM and the WorldModel is handed
to the optimizer a single time. -/
theorem C10_get_unique_params_once (encIds emaIds idmOwn wmOwn : List Nat) :
    (∀ p, p ∈ get_unique_params (idmParamIds encIds emaIds idmOwn)
        (wmParamIds encIds emaIds wmOwn) ↔
      p ∈ idmParamIds encIds emaIds idmOwn ∨ p ∈ wmParamIds encIds emaIds wmOwn) ∧
    (get_unique_params (idmParamIds encIds emaIds idmOwn)
      (wmParamIds encIds emaIds wmOwn)).Nodup ∧
    (∀ p, p ∈ idmParamIds encIds emaIds idmOwn ∨ p ∈ wmParamIds encIds emaIds wmOwn →
      (get_unique_params (idmParamIds encIds emaIds idmOwn)
        (wmParamIds encIds emaIds wmOwn)).count p = 1) ∧
    (∀ p, p ∈ encIds →
      (get_unique_params (idmParamIds encIds emaIds idmOwn)
        (wmParamIds encIds emaIds wmOwn)).count p = 1) := by
  have hmem : ∀ p, p ∈ get_unique_params (idmParamIds encIds emaIds idmOwn)
      (wmParamIds encIds emaIds wmOwn) ↔
      p ∈ idmParamIds encIds emaIds idmOwn ∨ p ∈ wmParamIds encIds emaIds wmOwn := by
    intro p
    rw [get_unique_params, List.mem_dedup, List.mem_append]
  have hnd : (get_unique_params (idmParamIds encIds emaIds idmOwn)
      (wmParamIds encIds emaIds wmOwn)).Nodup := List.nodup_dedup _
  have hcount : ∀ p, p ∈ idmParamIds encIds emaIds idmOwn ∨
      p ∈ wmParamIds encIds emaIds wmOwn →
      (get_unique_params (idmParamIds encIds emaIds idmOwn)
        (wmParamIds encIds emaIds wmOwn)).count p = 1 :=
    fun p hp => List.count_eq_one_of_mem hnd ((hmem p).mpr hp)
  refine ⟨hmem, hnd, hcount, fun p hp => hcount p (Or.inl ?_)⟩
  rw [idmParamIds, List.append_assoc, List.mem_append]
  exact Or.inl hp

/-- Witness for C10: the shared encoder parameter `0` appears in the lists of
both models and exactly once in the parameter collection of the optimizer. -/
theorem C10_get_unique_params_once_witness :
    ((0 : Nat) ∈ idmParamIds [0, 1] [2] [3] ∨ (0 : Nat) ∈ wmParamIds [0, 1] [2] [4]) ∧
    (get_unique_params (idmParamIds [0, 1] [2] [3]) (wmParamIds [0, 1] [2] [4])).count 0 = 1 :=
  ⟨by decide,
    (C10_get_unique_params_once [0, 1] [2] [3] [4]).2.2.1 0 (by decide)⟩

end LatentDynamics
